import Mathlib

/-!
Verification development for the De-Mercator overlay engine
(`generate_overlay_html.py`, `run_overlay_app.py`).

The repository is a thin pipeline around external geospatial libraries:
lat/lon layers are normalised to WGS84 (`_ensure_wgs84`), a projection
center is chosen (`_pick_center`), layers are projected into an azimuthal
equidistant (AEQD) plane, converted to feature collections
(`_to_feature_collection` / `_geom_to_geojson_feature_collection`), and
rendered by an embedded JavaScript application whose state machine
(`addSelected` / `removeLayer` / drag handler / `renderOverlay`) manages
layer instances, per-instance drag offsets and a shared viewport fit.

Pure numeric code (projection formulas, centroid, fit transform) lives in
external libraries (pyproj, shapely, d3); where the claims concern that
behaviour the definitions below are modelled from the specification, as
marked in their doc comments.  Everything else is translated directly
from the Python and JavaScript sources.
-/

namespace DeMercator

/-- Planar or geographic coordinate pair with exact rational components. -/
abbrev QPoint := ℚ × ℚ

/-! ## Geometry collections

The spec's closed tagged union over the geometry kinds actually used
(Point, LineString, Polygon, MultiPolygon); leaves are coordinate lists,
polygon rings are stored closed (first coordinate repeated at the end). -/

inductive Geometry (α : Type) where
  | point : α → Geometry α
  | lineString : List α → Geometry α
  | polygon : List (List α) → Geometry α
  | multiPolygon : List (List (List α)) → Geometry α
deriving DecidableEq

/-- Structure-preserving map over the coordinate leaves of a geometry. -/
def mapGeom {α β : Type} (f : α → β) : Geometry α → Geometry β
  | .point c => .point (f c)
  | .lineString cs => .lineString (cs.map f)
  | .polygon rs => .polygon (rs.map (List.map f))
  | .multiPolygon ps => .multiPolygon (ps.map (List.map (List.map f)))

/-- Total number of coordinates stored in a geometry. -/
def coordCount {α : Type} : Geometry α → Nat
  | .point _ => 1
  | .lineString cs => cs.length
  | .polygon rs => (rs.map List.length).sum
  | .multiPolygon ps => (ps.map (fun rs => (rs.map List.length).sum)).sum

/-- All coordinates of a geometry, in order. -/
def coords {α : Type} : Geometry α → List α
  | .point c => [c]
  | .lineString cs => cs
  | .polygon rs => rs.flatten
  | .multiPolygon ps => (ps.map List.flatten).flatten

/-- Polygon rings of a geometry (empty for non-areal geometries). -/
def ringsOf {α : Type} : Geometry α → List (List α)
  | .polygon rs => rs
  | .multiPolygon ps => ps.flatten
  | _ => []

/-- Pure structural skeleton of a geometry: same constructors and list
lengths, coordinates erased. -/
def shape {α : Type} (g : Geometry α) : Geometry Unit :=
  mapGeom (fun _ => ()) g

/-! ## GeoDataFrame-level data

A row of a GeoDataFrame carries an optional geometry (`None` rows occur in
real data and are skipped by the feature-collection writers). -/

abbrev Row := Option (Geometry QPoint)

/-- Model of a `geopandas.GeoDataFrame` restricted to what the scripts
use: a coordinate reference system tag (EPSG code, possibly undeclared)
and the geometry column. -/
structure GeoFrame where
  crs : Option Nat
  rows : List Row

/-- Geometries of the non-null rows, in order. -/
def rowsGeoms (rows : List Row) : List (Geometry QPoint) :=
  rows.filterMap (fun r => r)

/-! ## CRS normalisation (`_ensure_wgs84`)

`set_crs` only tags the frame with a CRS, `to_crs` reprojects the
coordinates.  The actual reprojection arithmetic is performed by pyproj,
so it enters the model as an abstract function parameter; reprojecting a
frame already in the target CRS is the identity. -/

/-- Model of `GeoDataFrame.set_crs(epsg=e)`: tags the frame, leaves the
coordinates untouched. -/
def setCrs (e : Nat) (f : GeoFrame) : GeoFrame :=
  ⟨some e, f.rows⟩

/-- Model of `GeoDataFrame.to_crs(epsg=e)`: reprojects the rows from the
declared CRS into `e` using the external transformer `reproject`; a frame
already tagged `e` is returned unchanged. -/
def toCrs (reproject : Nat → Nat → List Row → List Row) (e : Nat)
    (f : GeoFrame) : GeoFrame :=
  match f.crs with
  | none => f
  | some s => if s = e then f else ⟨some e, reproject s e f.rows⟩

/-- Translation of `_ensure_wgs84`: if the frame has no CRS, assume WGS84
(EPSG:4326) by tagging it, then reproject to EPSG:4326. -/
def ensureWgs84 (reproject : Nat → Nat → List Row → List Row)
    (f : GeoFrame) : GeoFrame :=
  toCrs reproject 4326 (if f.crs = none then setCrs 4326 f else f)

/-- The WGS84 normalisation stage of `main`: every raw layer is passed
through `_ensure_wgs84` before any center selection or projection. -/
def mainWgsStage (reproject : Nat → Nat → List Row → List Row)
    (raws : List GeoFrame) : List GeoFrame :=
  raws.map (ensureWgs84 reproject)

/-! ## Center selection (`_pick_center`)

The centroid itself is computed by shapely (`unary_union.centroid`),
which is outside the repository; the centroid definitions below are
modelled from the spec: area-weighted centroid when polygon rings are
present, arithmetic mean of the vertices otherwise. -/

/-- Twice the signed shoelace area of a closed ring. -/
def ringArea2 (r : List QPoint) : ℚ :=
  ((r.zip r.tail).map (fun pq => pq.1.1 * pq.2.2 - pq.2.1 * pq.1.2)).sum

/-- Shoelace first-moment sum for the x coordinate of a closed ring. -/
def ringMomentX (r : List QPoint) : ℚ :=
  ((r.zip r.tail).map
    (fun pq => (pq.1.1 + pq.2.1) * (pq.1.1 * pq.2.2 - pq.2.1 * pq.1.2))).sum

/-- Shoelace first-moment sum for the y coordinate of a closed ring. -/
def ringMomentY (r : List QPoint) : ℚ :=
  ((r.zip r.tail).map
    (fun pq => (pq.1.2 + pq.2.2) * (pq.1.1 * pq.2.2 - pq.2.1 * pq.1.2))).sum

/-- Modelled from the spec: area-weighted centroid of a set of closed
polygon rings (the shapely polygon centroid the repository obtains from
`unary_union.centroid`). -/
def areaCentroid (rings : List (List QPoint)) : QPoint :=
  let a2 := (rings.map ringArea2).sum
  ((rings.map ringMomentX).sum / (3 * a2),
   (rings.map ringMomentY).sum / (3 * a2))

/-- Modelled from the spec: mean of the vertices, used for non-areal
geometry. -/
def vertexMean (cs : List QPoint) : QPoint :=
  ((cs.map Prod.fst).sum / cs.length, (cs.map Prod.snd).sum / cs.length)

/-- All polygon rings of a frame's geometry column. -/
def layerRings (rows : List Row) : List (List QPoint) :=
  ((rowsGeoms rows).map ringsOf).flatten

/-- All coordinates of a frame's geometry column. -/
def layerCoords (rows : List Row) : List QPoint :=
  ((rowsGeoms rows).map coords).flatten

/-- Modelled from the spec: the centroid of one layer's geometry
(`unary_union.centroid` in the source, performed by shapely): the
area-weighted centroid when polygon geometry is present, the mean of the
vertices otherwise.  Returns an `(x, y)` = `(lon, lat)` pair, as shapely
does. -/
def specCentroid (f : GeoFrame) : QPoint :=
  if (layerRings f.rows).isEmpty then vertexMean (layerCoords f.rows)
  else areaCentroid (layerRings f.rows)

/-- Relevant slice of the YAML configuration: an optional explicit
`projection_center` (the `isinstance(pc, dict)` / key-presence check of
the source collapses to the option being present). -/
structure Config where
  projectionCenter : Option QPoint

/-- Translation of `_pick_center`: an explicit `projection_center` from
the config is returned as given; otherwise the centroid of the first
layer, as a `(lat, lon)` = `(c.y, c.x)` pair.  `none` models the
IndexError the Python would raise on an empty layer list. -/
def pickCenter (cfg : Config) (wgsLayers : List GeoFrame) : Option QPoint :=
  match cfg.projectionCenter with
  | some p => some p
  | none =>
    match wgsLayers with
    | [] => none
    | f :: _ => some ((specCentroid f).2, (specCentroid f).1)

/-- The center-selection stage of `main`: `_pick_center` applied to the
WGS84-normalised layers. -/
def mainCenterStage (reproject : Nat → Nat → List Row → List Row)
    (cfg : Config) (raws : List GeoFrame) : Option QPoint :=
  pickCenter cfg (mainWgsStage reproject raws)

/-! ## Layer loading (`_read_location` and the feature-collection writers) -/

/-- Error surfaced when a location produces an empty GeoDataFrame. -/
inductive LoadErr where
  | emptyGeometry
deriving DecidableEq

/-- Translation of the emptiness guard of `_read_location`: the rows are
the GeoDataFrame contents after reading and applying the optional `where`
filter; an empty frame raises (`ValueError` in the source, the spec's
`EmptyGeometry`). -/
def readLocation (rows : List Row) : Except LoadErr (List Row) :=
  if rows.isEmpty then .error .emptyGeometry else .ok rows

/-- Translation of `_to_feature_collection` /
`_geom_to_geojson_feature_collection`: null geometries and geometries
with no coordinates are skipped (`continue`), every other geometry is
emitted as a feature. -/
def toFeatureColl (rows : List Row) : List (Geometry QPoint) :=
  rows.filterMap (fun r =>
    match r with
    | none => none
    | some g => if coordCount g = 0 then none else some g)

/-- One load step of the `main` loop: read a location and, on success,
append its feature collection to the session's layer list; on failure the
session is returned unchanged together with the error. -/
def loadLayer (session : List (List (Geometry QPoint))) (rows : List Row) :
    List (List (Geometry QPoint)) × Option LoadErr :=
  match readLocation rows with
  | .error e => (session, some e)
  | .ok rs => (session ++ [toFeatureColl rs], none)

/-- Total number of coordinates across the non-null rows of a layer. -/
def totalCoordCount (rows : List Row) : Nat :=
  ((rowsGeoms rows).map coordCount).sum

/-! ## Browser application state (`run_overlay_app` embedded script)

`activeLayers` is the array of layer instances; `uniqId` is modelled by a
monotone counter (its only relevant property is freshness). -/

/-- One entry of the `activeLayers` array: instance id, source location
id, projected coordinates (flattened from the feature collection) and the
accumulated drag offset `(tx, ty)`. -/
structure Inst where
  instId : Nat
  srcId : Nat
  projected : List QPoint
  tx : ℚ
  ty : ℚ
deriving DecidableEq

/-- A selectable location as present in `DATA.locations`. -/
structure Loc where
  srcId : Nat
  projected : List QPoint
deriving DecidableEq

/-- The mutable application state: active layer instances plus the
freshness counter backing `uniqId`. -/
structure AppState where
  layers : List Inst
  nextId : Nat
deriving DecidableEq

/-- Translation of `addSelected`: push a new instance of the selected
location with `tx = 0, ty = 0` and a fresh instance id. -/
def addSelected (s : AppState) (loc : Loc) : AppState :=
  ⟨s.layers ++ [⟨s.nextId, loc.srcId, loc.projected, 0, 0⟩], s.nextId + 1⟩

/-- Translation of `removeLayer`: drop the instance with the given id. -/
def removeLayer (s : AppState) (i : Nat) : AppState :=
  ⟨s.layers.filter (fun l => l.instId != i), s.nextId⟩

/-- Translation of the drag handler: `layer.tx += dx; layer.ty += dy` on
the dragged instance only. -/
def applyDrag (s : AppState) (i : Nat) (dx dy : ℚ) : AppState :=
  ⟨s.layers.map (fun l =>
      if l.instId = i then ⟨l.instId, l.srcId, l.projected, l.tx + dx, l.ty + dy⟩
      else l),
   s.nextId⟩

/-- User actions driving the state machine. -/
inductive Op where
  | add : Loc → Op
  | drag : Nat → ℚ → ℚ → Op
  | remove : Nat → Op

/-- One step of the state machine. -/
def step (s : AppState) : Op → AppState
  | .add loc => addSelected s loc
  | .drag i dx dy => applyDrag s i dx dy
  | .remove i => removeLayer s i

/-- Run a sequence of user actions. -/
def run (s : AppState) (ops : List Op) : AppState :=
  ops.foldl step s

/-- The state at page load: no active layers. -/
def initState : AppState :=
  ⟨[], 0⟩

/-! ## Viewport fit (`renderOverlay`)

`renderOverlay` builds one feature collection from the projected features
of all active layers (offsets are not consulted) and fits it with
`d3.geoIdentity().reflectY(true).fitSize([1200, 800], fc)`.  The fit
arithmetic happens inside d3, so it is modelled from the spec: a single
uniform scale, a centering translation, and the vertical axis flip. -/

/-- Fixed viewport width (the SVG viewBox is `0 0 1200 800`). -/
def viewW : ℚ := 1200

/-- Fixed viewport height. -/
def viewH : ℚ := 800

/-- Minimum of a head element and a list (total bounding-box helper). -/
def lmin (x : ℚ) (xs : List ℚ) : ℚ :=
  xs.foldl min x

/-- Maximum of a head element and a list. -/
def lmax (x : ℚ) (xs : List ℚ) : ℚ :=
  xs.foldl max x

/-- A computed viewport fit: uniform scale plus translation, applied to
vertically flipped coordinates. -/
structure Fit where
  scale : ℚ
  tx : ℚ
  ty : ℚ
deriving DecidableEq

/-- Left edge of the bounding box of the points `p :: ps`. -/
def bboxMinX (p : QPoint) (ps : List QPoint) : ℚ :=
  lmin p.1 (ps.map Prod.fst)

/-- Right edge of the bounding box of the points `p :: ps`. -/
def bboxMaxX (p : QPoint) (ps : List QPoint) : ℚ :=
  lmax p.1 (ps.map Prod.fst)

/-- Lower edge of the bounding box of the vertically flipped points. -/
def bboxMinY (p : QPoint) (ps : List QPoint) : ℚ :=
  lmin (-p.2) (ps.map (fun q => -q.2))

/-- Upper edge of the bounding box of the vertically flipped points. -/
def bboxMaxY (p : QPoint) (ps : List QPoint) : ℚ :=
  lmax (-p.2) (ps.map (fun q => -q.2))

/-- Modelled from the spec: the uniform scale of
`fitSize([viewW, viewH], fc)`.  The float code computes
`min(viewW / dx, viewH / dy)`, where a zero extent gives an infinite
ratio; over exact rationals this is the minimum over the axes with
positive extent (the finite other-axis ratio when exactly one axis is
degenerate; the doubly degenerate case is handled in `vfit`). -/
def vfitScale (p : QPoint) (ps : List QPoint) : ℚ :=
  if bboxMaxX p ps - bboxMinX p ps = 0 then
    viewH / (bboxMaxY p ps - bboxMinY p ps)
  else if bboxMaxY p ps - bboxMinY p ps = 0 then
    viewW / (bboxMaxX p ps - bboxMinX p ps)
  else
    min (viewW / (bboxMaxX p ps - bboxMinX p ps))
      (viewH / (bboxMaxY p ps - bboxMinY p ps))

/-- The scale-and-center transform of `fitSize` for a coordinate stream
with at least one axis of positive extent. -/
def vfitF (p : QPoint) (ps : List QPoint) : Fit :=
  ⟨vfitScale p ps,
   (viewW - vfitScale p ps * (bboxMinX p ps + bboxMaxX p ps)) / 2,
   (viewH - vfitScale p ps * (bboxMinY p ps + bboxMaxY p ps)) / 2⟩

/-- Modelled from the spec: the fit transform produced by
`geoIdentity().reflectY(true).fitSize([viewW, viewH], fc)` for a
non-empty coordinate stream `p :: ps`: the bounding box of the flipped
points is scaled uniformly so that it fits the viewport and is centered
in it.  When the bounding box is a single point, the float code's scale
is infinite and the screen coordinates are not finite numbers: no usable
fit exists, modelled as `none`. -/
def vfit (p : QPoint) (ps : List QPoint) : Option Fit :=
  if bboxMaxX p ps - bboxMinX p ps = 0 ∧ bboxMaxY p ps - bboxMinY p ps = 0
  then none
  else some (vfitF p ps)

/-- Screen position of a projected point under a fit: the y axis is
flipped (planar y grows northward, screen y grows downward) and then the
uniform scale and translation are applied. -/
def applyFit (f : Fit) (q : QPoint) : QPoint :=
  (f.scale * q.1 + f.tx, f.scale * (-q.2) + f.ty)

/-- The combined coordinate stream `renderOverlay` hands to `fitSize`:
the projected coordinates of all active layers, offsets ignored. -/
def allPoints (s : AppState) : List QPoint :=
  (s.layers.map Inst.projected).flatten

/-- The shared viewport fit of the current state: `none` when no layer is
active (`renderOverlay` returns before fitting in that case). -/
def fitOf (s : AppState) : Option Fit :=
  match allPoints s with
  | [] => none
  | p :: ps => vfit p ps

/-! ## AEQD projection

The repository builds the projection with
`CRS.from_proj4("+proj=aeqd +lat_0=... +lon_0=... +datum=WGS84 +units=m")`
and lets pyproj evaluate it; the transform itself is therefore modelled
from the spec (section 4.2), which gives the forward spherical AEQD
formulas explicitly and refers to the standard inverse formulas. -/

/-- Mean Earth radius in meters used by the spherical AEQD formulas. -/
noncomputable def earthRadius : ℝ := 6371000

/-- Degrees to radians. -/
noncomputable def torad (d : ℝ) : ℝ := d * (Real.pi / 180)

/-- Radians to degrees. -/
noncomputable def todeg (r : ℝ) : ℝ := r * (180 / Real.pi)

/-- Two-argument arctangent with the usual `atan2 y x` convention,
realised as the argument of the complex number `x + y i`, so its value
lies in `(-pi, pi]`. -/
noncomputable def atan2 (y x : ℝ) : ℝ := Complex.arg ⟨x, y⟩

/-- Modelled from the spec: forward spherical AEQD transform about the
origin `(phi0, lam0)`, all angles in radians, returning planar meters
`(x, y)`:
angular distance `c`, bearing `theta`, planar distance `d = c * R`,
`x = d sin theta`, `y = d cos theta`. -/
noncomputable def aeqdForwardRad (phi0 lam0 phi lam : ℝ) : ℝ × ℝ :=
  let dlam := lam - lam0
  let a := Real.cos phi * Real.sin dlam
  let b := Real.cos phi0 * Real.sin phi -
    Real.sin phi0 * Real.cos phi * Real.cos dlam
  let cc := Real.sin phi0 * Real.sin phi +
    Real.cos phi0 * Real.cos phi * Real.cos dlam
  let c := atan2 (Real.sqrt (a ^ 2 + b ^ 2)) cc
  let theta := atan2 a b
  let d := c * earthRadius
  (d * Real.sin theta, d * Real.cos theta)

/-- Forward AEQD transform taking the origin and the point in degrees,
as the scripts pass them. -/
noncomputable def aeqdForward (lat0 lon0 lat lon : ℝ) : ℝ × ℝ :=
  aeqdForwardRad (torad lat0) (torad lon0) (torad lat) (torad lon)

/-- Normalisation of an angle in radians into the principal branch
`(-pi, pi]`, as PROJ's `adjlon` does on every inverse-projected
longitude. -/
noncomputable def wrapAngle (t : ℝ) : ℝ :=
  t - 2 * Real.pi * ⌈(t - Real.pi) / (2 * Real.pi)⌉

/-- Normalisation of a longitude in degrees into `(-180, 180]`. -/
noncomputable def wrapLon (d : ℝ) : ℝ :=
  todeg (wrapAngle (torad d))

/-- Modelled from the spec: standard inverse spherical AEQD formulas,
radians: from planar `(x, y)` recover `(phi, lam)`; the recovered
longitude is normalised into `(-pi, pi]`, as PROJ's inverse does
(`adjlon`); the degenerate planar origin maps back to the projection
origin. -/
noncomputable def aeqdInverseRad (phi0 lam0 x y : ℝ) : ℝ × ℝ :=
  let rho := Real.sqrt (x ^ 2 + y ^ 2)
  if rho = 0 then (phi0, wrapAngle lam0)
  else
    let c := rho / earthRadius
    let phi := Real.arcsin (Real.cos c * Real.sin phi0 +
      y * Real.sin c * Real.cos phi0 / rho)
    let lam := wrapAngle (lam0 + atan2 (x * Real.sin c)
      (rho * Real.cos phi0 * Real.cos c - y * Real.sin phi0 * Real.sin c))
    (phi, lam)

/-- Inverse AEQD transform with the origin in degrees and a result in
degrees. -/
noncomputable def aeqdInverse (lat0 lon0 x y : ℝ) : ℝ × ℝ :=
  ((aeqdInverseRad (torad lat0) (torad lon0) x y).1 * (180 / Real.pi),
   (aeqdInverseRad (torad lat0) (torad lon0) x y).2 * (180 / Real.pi))

/-- The point `(lat, lon)` is the antipode of the origin `(lat0, lon0)`,
for coordinates kept in the usual degree ranges. -/
def isAntipodal (lat0 lon0 lat lon : ℝ) : Prop :=
  lat = -lat0 ∧ (lon - lon0 = 180 ∨ lon - lon0 = -180)

/-- Geometry-level projection stage of `main`: `to_crs(aeqd)` maps every
coordinate of a layer through the forward AEQD transform, preserving the
geometry structure (coordinates here are `(lat, lon)` pairs in degrees). -/
noncomputable def projectLayer (lat0 lon0 : ℝ) (g : Geometry (ℝ × ℝ)) :
    Geometry (ℝ × ℝ) :=
  mapGeom (fun p => aeqdForward lat0 lon0 p.1 p.2) g

/-! ## Trace-level offset specification

To state that an instance's offset is exactly the accumulation of the
drag deltas addressed to it since the add that created it, the expected
offset is recomputed independently from the operation trace: instance ids
are handed out in add order, so the instance with id `k` is created by
the `(k+1)`-th add of the trace, and its offset is the sum of the drag
deltas addressed to `k` in the remainder of the trace. -/

/-- Number of add operations in a trace. -/
def countAdds : List Op → Nat
  | [] => 0
  | .add _ :: r => countAdds r + 1
  | .drag _ _ _ :: r => countAdds r
  | .remove _ :: r => countAdds r

/-- The part of the trace after the `(k+1)`-th add operation. -/
def suffixAfterAdd : List Op → Nat → List Op
  | [], _ => []
  | .add _ :: r, 0 => r
  | .add _ :: r, Nat.succ k => suffixAfterAdd r k
  | .drag _ _ _ :: r, k => suffixAfterAdd r k
  | .remove _ :: r, k => suffixAfterAdd r k

/-- Sum of the drag deltas addressed to instance `k` in a trace. -/
def dragTotal (k : Nat) : List Op → ℚ × ℚ
  | [] => (0, 0)
  | .drag i dx dy :: r =>
    if i = k then ((dragTotal k r).1 + dx, (dragTotal k r).2 + dy)
    else dragTotal k r
  | .add _ :: r => dragTotal k r
  | .remove _ :: r => dragTotal k r

/-- Expected offset of the instance with id `k` after a trace: the drag
deltas addressed to `k` after the add that created it. -/
def offSpec (k : Nat) (ops : List Op) : ℚ × ℚ :=
  dragTotal k (suffixAfterAdd ops k)

/-! ## Theorems -/

/-- Claim C3, counterexample: `_pick_center` performs no bounds check on
an explicitly supplied origin.  With `projection_center` latitude 200 —
far outside `[-90, 90]` — the function succeeds and returns the origin as
given instead of failing with `InvalidOrigin`. -/
theorem pickCenter_no_validation_cex :
    ¬((-90 : ℚ) ≤ 200 ∧ (200 : ℚ) ≤ 90) ∧
    pickCenter ⟨some (200, 10)⟩ [] = some (200, 10) :=
  ⟨by norm_num, rfl⟩

/-- Claim C3, amended: every explicitly supplied origin, whether within
the latitude/longitude bounds or not, is returned unchanged; no
`InvalidOrigin` failure exists in the code. -/
theorem pickCenter_explicit_origin (cfg : Config) (p : QPoint)
    (layers : List GeoFrame) (h : cfg.projectionCenter = some p) :
    pickCenter cfg layers = some p := by
  unfold pickCenter
  rw [h]

/-- Witness for `pickCenter_explicit_origin` at a concrete config. -/
theorem pickCenter_explicit_origin_witness :
    pickCenter ⟨some (3, 4)⟩ [] = some (3, 4) :=
  pickCenter_explicit_origin ⟨some (3, 4)⟩ (3, 4) [] rfl

/-- Claim C8: without an explicit `projection_center` the center is the
centroid of the first layer, returned as a `(lat, lon)` pair (shapely
reports `(x, y) = (lon, lat)`, the code swaps to `(c.y, c.x)`), and the
geometry of every layer other than the first has no influence on the
result. -/
theorem pickCenter_first_layer_centroid (cfg : Config) (f : GeoFrame)
    (rest rest2 : List GeoFrame) (h : cfg.projectionCenter = none) :
    pickCenter cfg (f :: rest) =
      some ((specCentroid f).2, (specCentroid f).1) ∧
    pickCenter cfg (f :: rest) = pickCenter cfg (f :: rest2) := by
  unfold pickCenter
  rw [h]
  exact ⟨rfl, rfl⟩

/-- Witness for `pickCenter_first_layer_centroid` on a concrete
single-point first layer with a differing second layer. -/
theorem pickCenter_first_layer_centroid_witness :
    pickCenter ⟨none⟩ [⟨some 4326, [some (.point (1, 2))]⟩, ⟨none, []⟩] =
      some ((specCentroid ⟨some 4326, [some (.point (1, 2))]⟩).2,
            (specCentroid ⟨some 4326, [some (.point (1, 2))]⟩).1) ∧
    pickCenter ⟨none⟩ [⟨some 4326, [some (.point (1, 2))]⟩, ⟨none, []⟩] =
      pickCenter ⟨none⟩ [⟨some 4326, [some (.point (1, 2))]⟩] :=
  pickCenter_first_layer_centroid ⟨none⟩ ⟨some 4326, [some (.point (1, 2))]⟩
    [⟨none, []⟩] [] rfl

/-- Claim C9, counterexample: the emptiness guard of `_read_location`
tests for zero rows, not zero coordinates.  A layer consisting of one
null-geometry row has zero coordinates, yet the load succeeds and appends
an empty feature collection instead of failing with `EmptyGeometry`. -/
theorem loadLayer_zero_coordinates_cex :
    totalCoordCount [(none : Row)] = 0 ∧
    loadLayer [] [(none : Row)] = ([[]], none) :=
  ⟨rfl, rfl⟩

/-- Claim C9, amended: a load fails with `EmptyGeometry` exactly when the
layer has zero rows after reading/filtering, and on failure the session
state is returned unchanged (no partial layer is added); when at least
one row is present the load succeeds, null or zero-coordinate
sub-geometries are skipped (never emitted), and every non-empty
sub-geometry is kept. -/
theorem loadLayer_empty_semantics (session : List (List (Geometry QPoint)))
    (rows : List Row) :
    (rows = [] → loadLayer session rows = (session, some .emptyGeometry)) ∧
    (rows ≠ [] →
      loadLayer session rows = (session ++ [toFeatureColl rows], none)) ∧
    (∀ g ∈ toFeatureColl rows, coordCount g ≠ 0) ∧
    (∀ g : Geometry QPoint, some g ∈ rows → coordCount g ≠ 0 →
      g ∈ toFeatureColl rows) := by
  refine ⟨?_, ?_, ?_, ?_⟩
  · intro h
    subst h
    rfl
  · intro h
    unfold loadLayer readLocation
    rw [if_neg (by simpa using h)]
  · intro g hg
    simp only [toFeatureColl, List.mem_filterMap] at hg
    obtain ⟨r, _, hfr⟩ := hg
    cases r with
    | none => simp at hfr
    | some g0 =>
      by_cases hc : coordCount g0 = 0
      · simp [hc] at hfr
      · simp [hc] at hfr
        subst hfr
        exact hc
  · intro g hg hc
    simp only [toFeatureColl, List.mem_filterMap]
    exact ⟨some g, hg, by simp [hc]⟩

/-- Witness for `loadLayer_empty_semantics`: a one-point layer with a
trailing null row loads as a single-feature collection. -/
theorem loadLayer_empty_semantics_witness :
    loadLayer [] [some (.point ((1 : ℚ), (2 : ℚ))), none] =
      ([[Geometry.point ((1 : ℚ), (2 : ℚ))]], none) ∧
    loadLayer [] [] = (([] : List (List (Geometry QPoint))),
      some LoadErr.emptyGeometry) :=
  ⟨(loadLayer_empty_semantics [] [some (.point (1, 2)), none]).2.1 (by simp),
   (loadLayer_empty_semantics [] []).1 rfl⟩

/-- Claim C10: a layer with no declared CRS is assumed to be WGS84 and
processed rather than rejected (`set_crs(epsg=4326)` tags it without
touching coordinates), every layer leaves `_ensure_wgs84` tagged
EPSG:4326, and `main` feeds exactly the WGS84-normalised layer list into
center selection (and the subsequent AEQD projection). -/
theorem ensureWgs84_defaults (reproject : Nat → Nat → List Row → List Row) :
    (∀ f : GeoFrame, (ensureWgs84 reproject f).crs = some 4326) ∧
    (∀ f : GeoFrame, f.crs = none →
      ensureWgs84 reproject f = ⟨some 4326, f.rows⟩) ∧
    (∀ (cfg : Config) (raws : List GeoFrame),
      mainCenterStage reproject cfg raws =
        pickCenter cfg (raws.map (ensureWgs84 reproject)) ∧
      ∀ f ∈ mainWgsStage reproject raws, f.crs = some 4326) := by
  have h1 : ∀ f : GeoFrame, (ensureWgs84 reproject f).crs = some 4326 := by
    intro f
    unfold ensureWgs84 toCrs setCrs
    cases hc : f.crs with
    | none => simp [hc]
    | some s =>
      by_cases hs : s = 4326
      · simp [hc, hs]
      · simp [hc, hs]
  refine ⟨h1, ?_, ?_⟩
  · intro f h
    unfold ensureWgs84 toCrs setCrs
    simp [h]
  · intro cfg raws
    refine ⟨rfl, ?_⟩
    intro f hf
    simp only [mainWgsStage, List.mem_map] at hf
    obtain ⟨g, _, rfl⟩ := hf
    exact h1 g

/-- Witness for `ensureWgs84_defaults` with the identity reprojector and
a CRS-less single-row frame. -/
theorem ensureWgs84_defaults_witness :
    ensureWgs84 (fun _ _ r => r) ⟨none, [none]⟩ = ⟨some 4326, [none]⟩ ∧
    (⟨some 4326, [none]⟩ : GeoFrame).crs = some 4326 :=
  ⟨(ensureWgs84_defaults (fun _ _ r => r)).2.1 ⟨none, [none]⟩ rfl,
   ((ensureWgs84_defaults (fun _ _ r => r)).2.2 ⟨none⟩ [⟨none, [none]⟩]).2
     ⟨some 4326, [none]⟩
     (by simp [mainWgsStage, ensureWgs84, toCrs, setCrs])⟩

theorem applyDrag_projected (s : AppState) (i : Nat) (dx dy : ℚ) :
    (applyDrag s i dx dy).layers.map Inst.projected =
      s.layers.map Inst.projected := by
  have h : (Inst.projected ∘ fun l : Inst =>
      if l.instId = i then
        (⟨l.instId, l.srcId, l.projected, l.tx + dx, l.ty + dy⟩ : Inst)
      else l) = Inst.projected := by
    funext l
    by_cases hl : l.instId = i <;> simp [hl]
  simp only [applyDrag, List.map_map, h]

theorem applyDrag_allPoints (s : AppState) (i : Nat) (dx dy : ℚ) :
    allPoints (applyDrag s i dx dy) = allPoints s := by
  unfold allPoints
  rw [applyDrag_projected]

/-- Claim C5: a drag delta applied to instance `i` leaves the shared
viewport fit unchanged (the fit is a function of the projected
coordinates only, which a drag never touches), leaves every other
instance — projected geometry and offset included — unchanged, and
changes exactly the dragged instance's offset by the delta. -/
theorem drag_isolation (s : AppState) (i : Nat) (dx dy : ℚ) :
    fitOf (applyDrag s i dx dy) = fitOf s ∧
    (applyDrag s i dx dy).layers.map Inst.projected =
      s.layers.map Inst.projected ∧
    (∀ l ∈ s.layers, l.instId ≠ i → l ∈ (applyDrag s i dx dy).layers) ∧
    (∀ l ∈ s.layers, l.instId = i →
      (⟨l.instId, l.srcId, l.projected, l.tx + dx, l.ty + dy⟩ : Inst) ∈
        (applyDrag s i dx dy).layers) := by
  refine ⟨?_, applyDrag_projected s i dx dy, ?_, ?_⟩
  · unfold fitOf
    rw [applyDrag_allPoints]
  · intro l hl hne
    simp only [applyDrag, List.mem_map]
    exact ⟨l, hl, by simp [hne]⟩
  · intro l hl heq
    simp only [applyDrag, List.mem_map]
    exact ⟨l, hl, by simp [heq]⟩

/-- Witness for `drag_isolation`: dragging the first of two instances
keeps the fit and leaves the second instance in place untouched. -/
theorem drag_isolation_witness :
    fitOf (applyDrag ⟨[⟨0, 0, [(0, 0)], 0, 0⟩, ⟨1, 1, [(1, 1)], 0, 0⟩], 2⟩
        0 10 (-5)) =
      fitOf ⟨[⟨0, 0, [(0, 0)], 0, 0⟩, ⟨1, 1, [(1, 1)], 0, 0⟩], 2⟩ ∧
    (⟨1, 1, [(1, 1)], 0, 0⟩ : Inst) ∈
      (applyDrag ⟨[⟨0, 0, [(0, 0)], 0, 0⟩, ⟨1, 1, [(1, 1)], 0, 0⟩], 2⟩
        0 10 (-5)).layers :=
  ⟨(drag_isolation ⟨[⟨0, 0, [(0, 0)], 0, 0⟩, ⟨1, 1, [(1, 1)], 0, 0⟩], 2⟩
      0 10 (-5)).1,
   (drag_isolation ⟨[⟨0, 0, [(0, 0)], 0, 0⟩, ⟨1, 1, [(1, 1)], 0, 0⟩], 2⟩
      0 10 (-5)).2.2.1 ⟨1, 1, [(1, 1)], 0, 0⟩ (by simp) (by simp)⟩

theorem countAdds_append (l1 l2 : List Op) :
    countAdds (l1 ++ l2) = countAdds l1 + countAdds l2 := by
  induction l1 with
  | nil => simp [countAdds]
  | cons hd tl ih =>
    cases hd <;> simp [countAdds, ih] <;> omega

theorem suffixAfterAdd_append_lt (op : Op) (l : List Op) (k : Nat)
    (h : k < countAdds l) :
    suffixAfterAdd (l ++ [op]) k = suffixAfterAdd l k ++ [op] := by
  induction l generalizing k with
  | nil => simp [countAdds] at h
  | cons hd tl ih =>
    cases hd with
    | add loc =>
      cases k with
      | zero => simp [suffixAfterAdd]
      | succ k2 =>
        have hk : k2 < countAdds tl := by
          simpa [countAdds] using h
        simpa [suffixAfterAdd] using ih k2 hk
    | drag i dx dy =>
      have hk : k < countAdds tl := by simpa [countAdds] using h
      simpa [suffixAfterAdd] using ih k hk
    | remove i =>
      have hk : k < countAdds tl := by simpa [countAdds] using h
      simpa [suffixAfterAdd] using ih k hk

theorem suffixAfterAdd_append_add (l : List Op) (loc : Loc) :
    suffixAfterAdd (l ++ [.add loc]) (countAdds l) = [] := by
  induction l with
  | nil => rfl
  | cons hd tl ih =>
    cases hd with
    | add a => simpa [countAdds, suffixAfterAdd] using ih
    | drag i dx dy => simpa [countAdds, suffixAfterAdd] using ih
    | remove i => simpa [countAdds, suffixAfterAdd] using ih

theorem dragTotal_append_add (k : Nat) (loc : Loc) (l : List Op) :
    dragTotal k (l ++ [.add loc]) = dragTotal k l := by
  induction l with
  | nil => rfl
  | cons hd tl ih =>
    cases hd <;> simp [dragTotal, ih]

theorem dragTotal_append_remove (k j : Nat) (l : List Op) :
    dragTotal k (l ++ [.remove j]) = dragTotal k l := by
  induction l with
  | nil => rfl
  | cons hd tl ih =>
    cases hd <;> simp [dragTotal, ih]

theorem dragTotal_append_drag (k i : Nat) (dx dy : ℚ) (l : List Op) :
    dragTotal k (l ++ [.drag i dx dy]) =
      if i = k then ((dragTotal k l).1 + dx, (dragTotal k l).2 + dy)
      else dragTotal k l := by
  induction l with
  | nil => by_cases hi : i = k <;> simp [dragTotal, hi]
  | cons hd tl ih =>
    cases hd with
    | add a => simpa [dragTotal] using ih
    | remove j => simpa [dragTotal] using ih
    | drag j ex ey =>
      rw [List.cons_append]
      simp only [dragTotal]
      rw [ih]
      by_cases hj : j = k <;> by_cases hi : i = k <;>
        simp [hj, hi, Prod.ext_iff] <;> constructor <;> ring

theorem run_append_single (s : AppState) (l : List Op) (op : Op) :
    run s (l ++ [op]) = step (run s l) op := by
  simp [run, List.foldl_append]

theorem run_good (ops : List Op) :
    (run initState ops).nextId = countAdds ops ∧
    ∀ l ∈ (run initState ops).layers,
      l.instId < countAdds ops ∧
      l.tx = (offSpec l.instId ops).1 ∧ l.ty = (offSpec l.instId ops).2 := by
  induction ops using List.reverseRecOn with
  | nil => simp [run, initState, countAdds]
  | append_singleton l op ih =>
    obtain ⟨hn, hmem⟩ := ih
    rw [run_append_single]
    cases op with
    | add loc =>
      constructor
      · simp [step, addSelected, countAdds_append, countAdds, hn]
      · intro x hx
        simp only [step, addSelected, List.mem_append, List.mem_singleton] at hx
        rcases hx with hold | hnew
        · obtain ⟨hlt, htx, hty⟩ := hmem x hold
          refine ⟨by simp [countAdds_append, countAdds]; omega, ?_, ?_⟩
          · rw [htx]
            unfold offSpec
            rw [suffixAfterAdd_append_lt _ _ _ hlt, dragTotal_append_add]
          · rw [hty]
            unfold offSpec
            rw [suffixAfterAdd_append_lt _ _ _ hlt, dragTotal_append_add]
        · subst hnew
          refine ⟨by simp [hn, countAdds_append, countAdds], ?_, ?_⟩ <;>
            simp [hn, offSpec, suffixAfterAdd_append_add, dragTotal]
    | drag i dx dy =>
      constructor
      · simp [step, applyDrag, countAdds_append, countAdds, hn]
      · intro x hx
        simp only [step, applyDrag, List.mem_map] at hx
        obtain ⟨a, ha, hax⟩ := hx
        obtain ⟨hlt, htx, hty⟩ := hmem a ha
        have hcount : countAdds (l ++ [Op.drag i dx dy]) = countAdds l := by
          simp [countAdds_append, countAdds]
        by_cases hai : a.instId = i
        · rw [if_pos hai] at hax
          subst hax
          refine ⟨by simpa [hcount] using hlt, ?_, ?_⟩
          · unfold offSpec
            rw [suffixAfterAdd_append_lt _ _ _ hlt, dragTotal_append_drag,
              if_pos hai.symm]
            simp [htx, offSpec]
          · unfold offSpec
            rw [suffixAfterAdd_append_lt _ _ _ hlt, dragTotal_append_drag,
              if_pos hai.symm]
            simp [hty, offSpec]
        · rw [if_neg hai] at hax
          subst hax
          refine ⟨by simpa [hcount] using hlt, ?_, ?_⟩
          · unfold offSpec
            rw [suffixAfterAdd_append_lt _ _ _ hlt, dragTotal_append_drag,
              if_neg (fun h => hai h.symm)]
            exact htx
          · unfold offSpec
            rw [suffixAfterAdd_append_lt _ _ _ hlt, dragTotal_append_drag,
              if_neg (fun h => hai h.symm)]
            exact hty
    | remove j =>
      constructor
      · simp [step, removeLayer, countAdds_append, countAdds, hn]
      · intro x hx
        simp only [step, removeLayer, List.mem_filter] at hx
        obtain ⟨hlt, htx, hty⟩ := hmem x hx.1
        have hcount : countAdds (l ++ [Op.remove j]) = countAdds l := by
          simp [countAdds_append, countAdds]
        refine ⟨by simpa [hcount] using hlt, ?_, ?_⟩
        · rw [htx]
          unfold offSpec
          rw [suffixAfterAdd_append_lt _ _ _ hlt, dragTotal_append_remove]
        · rw [hty]
          unfold offSpec
          rw [suffixAfterAdd_append_lt _ _ _ hlt, dragTotal_append_remove]

/-- Claim C6: after any sequence of add, drag and remove operations from
the empty state, every live instance's offset equals exactly the sum of
the drag deltas addressed to that instance after the add that created it
(so offsets start at `(0, 0)` on add and accumulate only addressed
deltas), and each add appends a brand-new instance with a zero offset
whose id differs from every currently live instance — removing and
re-adding a source layer therefore yields a fresh zero-offset instance,
with no state carried over. -/
theorem offsets_per_instance :
    (∀ (ops : List Op) (l : Inst), l ∈ (run initState ops).layers →
      l.tx = (offSpec l.instId ops).1 ∧ l.ty = (offSpec l.instId ops).2) ∧
    (∀ (ops : List Op) (loc : Loc),
      (run initState (ops ++ [.add loc])).layers =
        (run initState ops).layers ++
          [⟨(run initState ops).nextId, loc.srcId, loc.projected, 0, 0⟩] ∧
      ∀ l ∈ (run initState ops).layers,
        l.instId ≠ (run initState ops).nextId) := by
  constructor
  · intro ops l hl
    exact ((run_good ops).2 l hl).2
  · intro ops loc
    constructor
    · rw [run_append_single]
      simp [step, addSelected]
    · intro l hl
      rw [(run_good ops).1]
      exact Nat.ne_of_lt ((run_good ops).2 l hl).1

/-- Witness for `offsets_per_instance`: the spec's scenario — add the
same source twice, drag only instance 0 by `(10, -5)`; instance 1 keeps
offset `(0, 0)`, and the id handed out by the first add is fresh. -/
theorem offsets_per_instance_witness :
    ((⟨1, 7, [(1, 2)], 0, 0⟩ : Inst).tx =
      (offSpec 1 [.add ⟨7, [(1, 2)]⟩, .add ⟨7, [(1, 2)]⟩,
        .drag 0 10 (-5)]).1 ∧
     (⟨1, 7, [(1, 2)], 0, 0⟩ : Inst).ty =
      (offSpec 1 [.add ⟨7, [(1, 2)]⟩, .add ⟨7, [(1, 2)]⟩,
        .drag 0 10 (-5)]).2) ∧
    ((⟨0, 7, [(1, 2)], 10, -5⟩ : Inst).tx =
      (offSpec 0 [.add ⟨7, [(1, 2)]⟩, .add ⟨7, [(1, 2)]⟩,
        .drag 0 10 (-5)]).1 ∧
     (⟨0, 7, [(1, 2)], 10, -5⟩ : Inst).ty =
      (offSpec 0 [.add ⟨7, [(1, 2)]⟩, .add ⟨7, [(1, 2)]⟩,
        .drag 0 10 (-5)]).2) :=
  ⟨offsets_per_instance.1 [.add ⟨7, [(1, 2)]⟩, .add ⟨7, [(1, 2)]⟩,
      .drag 0 10 (-5)] ⟨1, 7, [(1, 2)], 0, 0⟩
      (by simp [run, initState, step, addSelected, applyDrag]),
   offsets_per_instance.1 [.add ⟨7, [(1, 2)]⟩, .add ⟨7, [(1, 2)]⟩,
      .drag 0 10 (-5)] ⟨0, 7, [(1, 2)], 10, -5⟩
      (by simp [run, initState, step, addSelected, applyDrag])⟩

theorem lmin_le_head (x : ℚ) (xs : List ℚ) : lmin x xs ≤ x := by
  induction xs generalizing x with
  | nil => simp [lmin]
  | cons y ys ih =>
    calc lmin x (y :: ys) = lmin (min x y) ys := rfl
    _ ≤ min x y := ih (min x y)
    _ ≤ x := min_le_left x y

theorem lmin_le_mem (x a : ℚ) (xs : List ℚ) (h : a ∈ xs) : lmin x xs ≤ a := by
  induction xs generalizing x with
  | nil => cases h
  | cons y ys ih =>
    rcases List.mem_cons.mp h with rfl | hmem
    · calc lmin x (a :: ys) = lmin (min x a) ys := rfl
      _ ≤ min x a := lmin_le_head (min x a) ys
      _ ≤ a := min_le_right x a
    · exact ih (min x y) hmem

theorem head_le_lmax (x : ℚ) (xs : List ℚ) : x ≤ lmax x xs := by
  induction xs generalizing x with
  | nil => simp [lmax]
  | cons y ys ih =>
    calc x ≤ max x y := le_max_left x y
    _ ≤ lmax (max x y) ys := ih (max x y)
    _ = lmax x (y :: ys) := rfl

theorem mem_le_lmax (x a : ℚ) (xs : List ℚ) (h : a ∈ xs) : a ≤ lmax x xs := by
  induction xs generalizing x with
  | nil => cases h
  | cons y ys ih =>
    rcases List.mem_cons.mp h with rfl | hmem
    · calc a ≤ max x a := le_max_right x a
      _ ≤ lmax (max x a) ys := head_le_lmax (max x a) ys
      _ = lmax x (a :: ys) := rfl
    · exact ih (max x y) hmem

/-- Claim C4, counterexample: a non-empty active layer set whose
combined projected extent is a single point (here one layer holding a
single point) admits no finite fit: the d3 scale `min(1200/0, 800/0)` is
infinite and the screen coordinates are not finite numbers, modelled as
`fitOf = none`, contradicting the claim that every non-empty active set
is fitted inside the viewport. -/
theorem viewport_fit_degenerate_cex :
    allPoints ⟨[⟨0, 0, [(5, 5)], 0, 0⟩], 1⟩ ≠ [] ∧
    fitOf ⟨[⟨0, 0, [(5, 5)], 0, 0⟩], 1⟩ = none := by
  constructor
  · simp [allPoints]
  · show vfit (5, 5) [] = none
    have hcond : bboxMaxX (5, 5) ([] : List QPoint) - bboxMinX (5, 5) [] = 0 ∧
        bboxMaxY (5, 5) [] - bboxMinY (5, 5) [] = 0 := by
      constructor <;>
        norm_num [bboxMaxX, bboxMinX, bboxMaxY, bboxMinY, lmax, lmin]
    unfold vfit
    rw [if_pos hcond]

/-- Claim C4, amended: for every non-empty point stream whose bounding
box is not a single point, the fit exists and has a positive scale
applied identically to both axes (the screen displacement between any
two points is the same single scale times the planar displacement on
each axis, with the sign flipped on y) — when one axis has zero extent
the scale is the finite other-axis ratio, as in the float code — the
image of every input point lies inside the 1200 by 800 viewport, the
bounding box is centered in the viewport, and larger (more northward)
planar y maps to smaller (higher) screen y. -/
theorem viewport_fit_props (p : QPoint) (ps : List QPoint)
    (hnd : ¬(bboxMaxX p ps - bboxMinX p ps = 0 ∧
      bboxMaxY p ps - bboxMinY p ps = 0)) :
    vfit p ps = some (vfitF p ps) ∧
    0 < (vfitF p ps).scale ∧
    (∀ q ∈ p :: ps,
      0 ≤ (applyFit (vfitF p ps) q).1 ∧ (applyFit (vfitF p ps) q).1 ≤ viewW ∧
      0 ≤ (applyFit (vfitF p ps) q).2 ∧ (applyFit (vfitF p ps) q).2 ≤ viewH) ∧
    ((vfitF p ps).scale * ((bboxMinX p ps + bboxMaxX p ps) / 2) +
        (vfitF p ps).tx = viewW / 2 ∧
     (vfitF p ps).scale * ((bboxMinY p ps + bboxMaxY p ps) / 2) +
        (vfitF p ps).ty = viewH / 2) ∧
    (∀ q r : QPoint,
      (applyFit (vfitF p ps) q).1 - (applyFit (vfitF p ps) r).1 =
        (vfitF p ps).scale * (q.1 - r.1) ∧
      (applyFit (vfitF p ps) q).2 - (applyFit (vfitF p ps) r).2 =
        -((vfitF p ps).scale * (q.2 - r.2))) ∧
    (∀ a b : ℚ, a < b →
      (applyFit (vfitF p ps) (0, b)).2 < (applyFit (vfitF p ps) (0, a)).2) := by
  have hW : (0 : ℚ) < viewW := by norm_num [viewW]
  have hH : (0 : ℚ) < viewH := by norm_num [viewH]
  have hdxnn : 0 ≤ bboxMaxX p ps - bboxMinX p ps := by
    rw [sub_nonneg]
    exact le_trans (lmin_le_head _ _) (head_le_lmax _ _)
  have hdynn : 0 ≤ bboxMaxY p ps - bboxMinY p ps := by
    rw [sub_nonneg]
    exact le_trans (lmin_le_head _ _) (head_le_lmax _ _)
  have hs : (vfitF p ps).scale = vfitScale p ps := rfl
  have htx : (vfitF p ps).tx =
      (viewW - vfitScale p ps * (bboxMinX p ps + bboxMaxX p ps)) / 2 := rfl
  have hty : (vfitF p ps).ty =
      (viewH - vfitScale p ps * (bboxMinY p ps + bboxMaxY p ps)) / 2 := rfl
  have hk : 0 < vfitScale p ps ∧
      vfitScale p ps * (bboxMaxX p ps - bboxMinX p ps) ≤ viewW ∧
      vfitScale p ps * (bboxMaxY p ps - bboxMinY p ps) ≤ viewH := by
    by_cases hdx : bboxMaxX p ps - bboxMinX p ps = 0
    · have hdy : bboxMaxY p ps - bboxMinY p ps ≠ 0 := fun h => hnd ⟨hdx, h⟩
      have hdyp : 0 < bboxMaxY p ps - bboxMinY p ps :=
        lt_of_le_of_ne hdynn (Ne.symm hdy)
      unfold vfitScale
      rw [if_pos hdx]
      refine ⟨div_pos hH hdyp, ?_, ?_⟩
      · rw [hdx, mul_zero]
        exact hW.le
      · rw [div_mul_cancel₀ _ (ne_of_gt hdyp)]
    · by_cases hdy : bboxMaxY p ps - bboxMinY p ps = 0
      · have hdxp : 0 < bboxMaxX p ps - bboxMinX p ps :=
          lt_of_le_of_ne hdxnn (Ne.symm hdx)
        unfold vfitScale
        rw [if_neg hdx, if_pos hdy]
        refine ⟨div_pos hW hdxp, ?_, ?_⟩
        · rw [div_mul_cancel₀ _ (ne_of_gt hdxp)]
        · rw [hdy, mul_zero]
          exact hH.le
      · have hdxp : 0 < bboxMaxX p ps - bboxMinX p ps :=
          lt_of_le_of_ne hdxnn (Ne.symm hdx)
        have hdyp : 0 < bboxMaxY p ps - bboxMinY p ps :=
          lt_of_le_of_ne hdynn (Ne.symm hdy)
        unfold vfitScale
        rw [if_neg hdx, if_neg hdy]
        refine ⟨lt_min (div_pos hW hdxp) (div_pos hH hdyp), ?_, ?_⟩
        · have h1 := min_le_left (viewW / (bboxMaxX p ps - bboxMinX p ps))
            (viewH / (bboxMaxY p ps - bboxMinY p ps))
          rw [le_div_iff₀ hdxp] at h1
          exact h1
        · have h1 := min_le_right (viewW / (bboxMaxX p ps - bboxMinX p ps))
            (viewH / (bboxMaxY p ps - bboxMinY p ps))
          rw [le_div_iff₀ hdyp] at h1
          exact h1
  obtain ⟨hk0, hkx, hky⟩ := hk
  refine ⟨by unfold vfit; rw [if_neg hnd], by rw [hs]; exact hk0, ?_,
    ⟨?_, ?_⟩, ?_, ?_⟩
  · intro q hq
    have hq1 : bboxMinX p ps ≤ q.1 ∧ q.1 ≤ bboxMaxX p ps := by
      rcases List.mem_cons.mp hq with rfl | hmem
      · exact ⟨lmin_le_head _ _, head_le_lmax _ _⟩
      · have hmx : q.1 ∈ ps.map Prod.fst := List.mem_map_of_mem Prod.fst hmem
        exact ⟨lmin_le_mem _ _ _ hmx, mem_le_lmax _ _ _ hmx⟩
    have hq2 : bboxMinY p ps ≤ -q.2 ∧ -q.2 ≤ bboxMaxY p ps := by
      rcases List.mem_cons.mp hq with rfl | hmem
      · exact ⟨lmin_le_head _ _, head_le_lmax _ _⟩
      · have hmy : -q.2 ∈ ps.map (fun q => -q.2) :=
          List.mem_map_of_mem (fun q => -q.2) hmem
        exact ⟨lmin_le_mem _ _ _ hmy, mem_le_lmax _ _ _ hmy⟩
    have e1 : 0 ≤ vfitScale p ps * (q.1 - bboxMinX p ps) :=
      mul_nonneg hk0.le (by linarith [hq1.1])
    have e2 : 0 ≤ vfitScale p ps * (bboxMaxX p ps - q.1) :=
      mul_nonneg hk0.le (by linarith [hq1.2])
    have e3 : 0 ≤ vfitScale p ps * (-q.2 - bboxMinY p ps) :=
      mul_nonneg hk0.le (by linarith [hq2.1])
    have e4 : 0 ≤ vfitScale p ps * (bboxMaxY p ps - -q.2) :=
      mul_nonneg hk0.le (by linarith [hq2.2])
    refine ⟨?_, ?_, ?_, ?_⟩
    · show 0 ≤ vfitScale p ps * q.1 + (vfitF p ps).tx
      rw [htx]
      nlinarith [e1, hkx]
    · show vfitScale p ps * q.1 + (vfitF p ps).tx ≤ viewW
      rw [htx]
      nlinarith [e2, hkx]
    · show 0 ≤ vfitScale p ps * (-q.2) + (vfitF p ps).ty
      rw [hty]
      nlinarith [e3, hky]
    · show vfitScale p ps * (-q.2) + (vfitF p ps).ty ≤ viewH
      rw [hty]
      nlinarith [e4, hky]
  · rw [hs, htx]
    ring
  · rw [hs, hty]
    ring
  · intro q r
    constructor <;> simp [applyFit] <;> ring
  · intro a b hab
    show vfitScale p ps * (-b) + (vfitF p ps).ty <
      vfitScale p ps * (-a) + (vfitF p ps).ty
    nlinarith [mul_pos hk0 (sub_pos.mpr hab)]

/-- Witness for `viewport_fit_props` on a two-point stream. -/
theorem viewport_fit_props_witness :
    vfit (0, 0) [(10, 20)] = some (vfitF (0, 0) [(10, 20)]) ∧
    0 < (vfitF (0, 0) [(10, 20)]).scale ∧
    (0 ≤ (applyFit (vfitF (0, 0) [(10, 20)]) (10, 20)).1 ∧
     (applyFit (vfitF (0, 0) [(10, 20)]) (10, 20)).1 ≤ viewW ∧
     0 ≤ (applyFit (vfitF (0, 0) [(10, 20)]) (10, 20)).2 ∧
     (applyFit (vfitF (0, 0) [(10, 20)]) (10, 20)).2 ≤ viewH) :=
  ⟨(viewport_fit_props (0, 0) [(10, 20)] (by
      norm_num [bboxMaxX, bboxMinX, bboxMaxY, bboxMinY, lmax, lmin,
        max_def, min_def])).1,
   (viewport_fit_props (0, 0) [(10, 20)] (by
      norm_num [bboxMaxX, bboxMinX, bboxMaxY, bboxMinY, lmax, lmin,
        max_def, min_def])).2.1,
   (viewport_fit_props (0, 0) [(10, 20)] (by
      norm_num [bboxMaxX, bboxMinX, bboxMaxY, bboxMinY, lmax, lmin,
        max_def, min_def])).2.2.1
     (10, 20) (by simp)⟩

theorem unitize_map {α β : Type} (f : α → β) (l : List α) :
    (l.map f).map (fun _ => ()) = l.map (fun _ => ()) := by
  rw [List.map_map]

theorem unitize_map2 {α β : Type} (f : α → β) (rs : List (List α)) :
    (rs.map (List.map f)).map (List.map (fun _ => ())) =
      rs.map (List.map (fun _ => ())) := by
  rw [List.map_map]
  exact List.map_congr_left (fun r _ => unitize_map f r)

theorem unitize_map3 {α β : Type} (f : α → β) (ps : List (List (List α))) :
    (ps.map (List.map (List.map f))).map (List.map (List.map (fun _ => ()))) =
      ps.map (List.map (List.map (fun _ => ()))) := by
  rw [List.map_map]
  exact List.map_congr_left (fun rs _ => unitize_map2 f rs)

theorem shape_mapGeom {α β : Type} (f : α → β) (g : Geometry α) :
    shape (mapGeom f g) = shape g := by
  cases g with
  | point c => rfl
  | lineString cs => exact congrArg Geometry.lineString (unitize_map f cs)
  | polygon rs => exact congrArg Geometry.polygon (unitize_map2 f rs)
  | multiPolygon ps => exact congrArg Geometry.multiPolygon (unitize_map3 f ps)

/-- Claim C7: projecting a layer point-by-point preserves the geometry
structure exactly (same constructor, same part and ring counts), keeps
every ring's coordinate count, and maps a closed ring (first coordinate
equal to the last) to a closed ring. -/
theorem projectLayer_structure (lat0 lon0 : ℝ) (g : Geometry (ℝ × ℝ)) :
    shape (projectLayer lat0 lon0 g) = shape g ∧
    ringsOf (projectLayer lat0 lon0 g) =
      (ringsOf g).map (List.map (fun p => aeqdForward lat0 lon0 p.1 p.2)) ∧
    (ringsOf (projectLayer lat0 lon0 g)).map List.length =
      (ringsOf g).map List.length ∧
    (∀ r ∈ ringsOf g, r.head? = r.getLast? →
      (r.map (fun p => aeqdForward lat0 lon0 p.1 p.2)).head? =
        (r.map (fun p => aeqdForward lat0 lon0 p.1 p.2)).getLast?) := by
  have hrings : ringsOf (projectLayer lat0 lon0 g) =
      (ringsOf g).map (List.map (fun p => aeqdForward lat0 lon0 p.1 p.2)) := by
    cases g <;> simp [projectLayer, mapGeom, ringsOf, List.map_flatten]
  refine ⟨?_, hrings, ?_, ?_⟩
  · unfold projectLayer
    exact shape_mapGeom _ g
  · rw [hrings]
    simp [List.map_map, Function.comp]
  · intro r _ hclosed
    rw [List.head?_map, List.getLast?_map, hclosed]

/-- Witness for `projectLayer_structure`: a single closed triangle ring
stays structurally identical and closed under projection. -/
theorem projectLayer_structure_witness :
    shape (projectLayer 0 0
        (.polygon [[((0 : ℝ), (0 : ℝ)), (1, 0), (0, 0)]])) =
      shape (.polygon [[((0 : ℝ), (0 : ℝ)), (1, 0), (0, 0)]]) ∧
    ([((0 : ℝ), (0 : ℝ)), (1, 0), (0, 0)].map
        (fun p => aeqdForward 0 0 p.1 p.2)).head? =
      ([((0 : ℝ), (0 : ℝ)), (1, 0), (0, 0)].map
        (fun p => aeqdForward 0 0 p.1 p.2)).getLast? :=
  ⟨(projectLayer_structure 0 0
      (.polygon [[((0 : ℝ), (0 : ℝ)), (1, 0), (0, 0)]])).1,
   (projectLayer_structure 0 0
      (.polygon [[((0 : ℝ), (0 : ℝ)), (1, 0), (0, 0)]])).2.2.2
     [((0 : ℝ), (0 : ℝ)), (1, 0), (0, 0)] (by simp [ringsOf]) rfl⟩

/-! ### Facts about atan2 -/

theorem abs_mk_eq_one {x y : ℝ} (h : x ^ 2 + y ^ 2 = 1) :
    Complex.abs ⟨x, y⟩ = 1 := by
  rw [Complex.abs_apply, Complex.normSq_mk,
    show x * x + y * y = 1 by nlinarith]
  exact Real.sqrt_one

theorem cos_atan2_unit {y x : ℝ} (h : x ^ 2 + y ^ 2 = 1) :
    Real.cos (atan2 y x) = x := by
  have habs := abs_mk_eq_one h
  have hz : (⟨x, y⟩ : ℂ) ≠ 0 := by
    intro h0
    rw [h0] at habs
    simpa using habs
  rw [atan2, Complex.cos_arg hz, habs]
  simp

theorem sin_atan2_unit {y x : ℝ} (h : x ^ 2 + y ^ 2 = 1) :
    Real.sin (atan2 y x) = y := by
  rw [atan2, Complex.sin_arg, abs_mk_eq_one h]
  simp

theorem abs_mk_eq_scale {x y s : ℝ} (hs : 0 < s) (h : x ^ 2 + y ^ 2 = s ^ 2) :
    Complex.abs ⟨x, y⟩ = s := by
  rw [Complex.abs_apply, Complex.normSq_mk,
    show x * x + y * y = s ^ 2 by nlinarith]
  exact Real.sqrt_sq hs.le

theorem cos_sin_atan2_scaled {y x s : ℝ} (hs : 0 < s)
    (h : x ^ 2 + y ^ 2 = s ^ 2) :
    Real.cos (atan2 y x) = x / s ∧ Real.sin (atan2 y x) = y / s := by
  have habs := abs_mk_eq_scale hs h
  have hz : (⟨x, y⟩ : ℂ) ≠ 0 := by
    intro h0
    rw [h0] at habs
    simp at habs
    linarith
  exact ⟨by rw [atan2, Complex.cos_arg hz, habs],
    by rw [atan2, Complex.sin_arg, habs]⟩

theorem atan2_nonneg {y x : ℝ} (h : 0 ≤ y) : 0 ≤ atan2 y x := by
  rw [atan2]
  exact Complex.arg_nonneg_iff.mpr h

theorem atan2_smul {y x r : ℝ} (hr : 0 < r) :
    atan2 (r * y) (r * x) = atan2 y x := by
  have hmk : (⟨r * x, r * y⟩ : ℂ) = (r : ℂ) * ⟨x, y⟩ := by
    apply Complex.ext <;> simp
  rw [atan2, hmk, Complex.arg_real_mul _ hr, atan2]

theorem atan2_cos_sin {t : ℝ} (h1 : -Real.pi < t) (h2 : t ≤ Real.pi) :
    atan2 (Real.sin t) (Real.cos t) = t := by
  have hmk : (⟨Real.cos t, Real.sin t⟩ : ℂ) =
      Complex.cos t + Complex.sin t * Complex.I := by
    apply Complex.ext <;>
      simp [Complex.cos_ofReal_re, Complex.sin_ofReal_re,
        Complex.cos_ofReal_im, Complex.sin_ofReal_im]
  rw [atan2, hmk, Complex.arg_cos_add_sin_mul_I ⟨h1, h2⟩]

theorem atan2_zero_one : atan2 0 1 = 0 := by
  rw [atan2, show (⟨1, 0⟩ : ℂ) = 1 by apply Complex.ext <;> simp,
    Complex.arg_one]

theorem atan2_one_zero : atan2 1 0 = Real.pi / 2 := by
  rw [atan2, show (⟨0, 1⟩ : ℂ) = Complex.I by apply Complex.ext <;> simp,
    Complex.arg_I]

theorem atan2_zero_zero : atan2 0 0 = 0 := by
  rw [atan2, show (⟨0, 0⟩ : ℂ) = 0 by apply Complex.ext <;> simp,
    Complex.arg_zero]

/-! ### Degree conversion facts -/

theorem pi180_pos : 0 < Real.pi / 180 :=
  div_pos Real.pi_pos (by norm_num)

theorem torad_lt {a b : ℝ} (h : a < b) : torad a < torad b :=
  mul_lt_mul_of_pos_right h pi180_pos

theorem torad_le {a b : ℝ} (h : a ≤ b) : torad a ≤ torad b :=
  mul_le_mul_of_nonneg_right h pi180_pos.le

theorem torad_inj {a b : ℝ} (h : torad a = torad b) : a = b :=
  mul_right_cancel₀ (ne_of_gt pi180_pos) h

theorem torad_sub (a b : ℝ) : torad a - torad b = torad (a - b) := by
  unfold torad
  ring

theorem torad_neg (a : ℝ) : torad (-a) = -torad a := by
  unfold torad
  ring

theorem torad_zero : torad 0 = 0 := by
  unfold torad
  ring

theorem torad_90 : torad 90 = Real.pi / 2 := by
  unfold torad
  ring

theorem torad_neg_90 : torad (-90) = -(Real.pi / 2) := by
  unfold torad
  ring

theorem torad_180 : torad 180 = Real.pi := by
  unfold torad
  ring

theorem torad_neg_180 : torad (-180) = -Real.pi := by
  unfold torad
  ring

theorem todeg_torad (x : ℝ) : todeg (torad x) = x := by
  unfold torad todeg
  field_simp

theorem torad_360 : torad 360 = 2 * Real.pi := by
  unfold torad
  ring

theorem torad_neg_360 : torad (-360) = -(2 * Real.pi) := by
  unfold torad
  ring

theorem wrapAngle_sub_int (t : ℝ) (n : ℤ) :
    wrapAngle (t - n * (2 * Real.pi)) = wrapAngle t := by
  have hpi := Real.pi_pos
  have h2pi : (2 : ℝ) * Real.pi ≠ 0 := by positivity
  unfold wrapAngle
  have harg : (t - n * (2 * Real.pi) - Real.pi) / (2 * Real.pi) =
      (t - Real.pi) / (2 * Real.pi) - n := by
    field_simp
    ring
  rw [harg, Int.ceil_sub_int]
  push_cast
  ring

theorem wrapAngle_eq_self {t : ℝ} (h1 : -Real.pi < t) (h2 : t ≤ Real.pi) :
    wrapAngle t = t := by
  have hpi := Real.pi_pos
  have h2pi : (0 : ℝ) < 2 * Real.pi := by positivity
  unfold wrapAngle
  have hc : ⌈(t - Real.pi) / (2 * Real.pi)⌉ = 0 := by
    rw [Int.ceil_eq_zero_iff]
    constructor
    · rw [lt_div_iff₀ h2pi]
      linarith
    · exact div_nonpos_of_nonpos_of_nonneg (by linarith) h2pi.le
  rw [hc]
  norm_num

theorem wrapLon_eq_self {d : ℝ} (h1 : -180 < d) (h2 : d ≤ 180) :
    wrapLon d = d := by
  unfold wrapLon
  rw [wrapAngle_eq_self (by rw [← torad_neg_180]; exact torad_lt h1)
    (by rw [← torad_180]; exact torad_le h2), todeg_torad]

/-- Claim C2: projecting the origin about itself yields exactly `(0, 0)`:
the angular distance evaluates to `atan2 0 1 = 0`, so both planar
components vanish; the model is total, so no division or `atan2` domain
error can occur at this degenerate input. -/
theorem aeqd_origin (lat0 lon0 : ℝ) :
    aeqdForward lat0 lon0 lat0 lon0 = (0, 0) := by
  unfold aeqdForward aeqdForwardRad
  have hb : Real.cos (torad lat0) * Real.sin (torad lat0) -
      Real.sin (torad lat0) * Real.cos (torad lat0) * Real.cos 0 = 0 := by
    rw [Real.cos_zero]
    ring
  have hcc : Real.sin (torad lat0) * Real.sin (torad lat0) +
      Real.cos (torad lat0) * Real.cos (torad lat0) * Real.cos 0 = 1 := by
    rw [Real.cos_zero]
    nlinarith [Real.sin_sq_add_cos_sq (torad lat0)]
  simp only [sub_self, Real.sin_zero, mul_zero, hb, hcc]
  rw [show Real.sqrt (0 ^ 2 + 0 ^ 2) = 0 by
    rw [show (0 : ℝ) ^ 2 + 0 ^ 2 = 0 by norm_num]
    exact Real.sqrt_zero]
  rw [atan2_zero_one]
  norm_num

set_option maxHeartbeats 3200000 in
theorem aeqd_roundtrip_rad (phi0 lam0 phi lam : ℝ)
    (h0l : -(Real.pi / 2) ≤ phi0) (h0u : phi0 ≤ Real.pi / 2)
    (hpl : -(Real.pi / 2) < phi) (hpu : phi < Real.pi / 2)
    (hdll : -(2 * Real.pi) ≤ lam - lam0) (hdlu : lam - lam0 ≤ 2 * Real.pi)
    (hnc : ¬(phi = phi0 ∧ lam = lam0))
    (hna : ¬(phi = -phi0 ∧ (lam - lam0 = Real.pi ∨ lam - lam0 = -Real.pi))) :
    aeqdInverseRad phi0 lam0 (aeqdForwardRad phi0 lam0 phi lam).1
      (aeqdForwardRad phi0 lam0 phi lam).2 = (phi, wrapAngle lam) := by
  have hpi := Real.pi_pos
  set dl := lam - lam0 with hdl_def
  set A := Real.cos phi * Real.sin dl with hA_def
  set B := Real.cos phi0 * Real.sin phi -
    Real.sin phi0 * Real.cos phi * Real.cos dl with hB_def
  set CC := Real.sin phi0 * Real.sin phi +
    Real.cos phi0 * Real.cos phi * Real.cos dl with hC_def
  set s := Real.sqrt (A ^ 2 + B ^ 2) with hs_def
  set c := atan2 s CC with hc_def
  set th := atan2 A B with hth_def
  set x := c * earthRadius * Real.sin th with hx_def
  set y := c * earthRadius * Real.cos th with hy_def
  have hfwd : aeqdForwardRad phi0 lam0 phi lam = (x, y) := rfl
  have hsin0 := Real.sin_sq_add_cos_sq phi0
  have hsinp := Real.sin_sq_add_cos_sq phi
  have hsind := Real.sin_sq_add_cos_sq dl
  have hsum : A ^ 2 + B ^ 2 + CC ^ 2 = 1 := by
    rw [hA_def, hB_def, hC_def]
    linear_combination
      (Real.sin phi ^ 2 + Real.cos phi ^ 2 * Real.cos dl ^ 2) * hsin0 +
      Real.cos phi ^ 2 * hsind + hsinp
  have hcp : 0 < Real.cos phi := Real.cos_pos_of_mem_Ioo ⟨hpl, hpu⟩
  have hc0 : 0 ≤ Real.cos phi0 := Real.cos_nonneg_of_mem_Icc ⟨h0l, h0u⟩
  have hsp_lt : Real.sin phi < 1 := by
    have hmem1 : phi ∈ Set.Icc (-(Real.pi / 2)) (Real.pi / 2) := ⟨hpl.le, hpu.le⟩
    have hmem2 : Real.pi / 2 ∈ Set.Icc (-(Real.pi / 2)) (Real.pi / 2) :=
      ⟨by linarith, le_refl _⟩
    have := Real.strictMonoOn_sin hmem1 hmem2 hpu
    rwa [Real.sin_pi_div_two] at this
  have hsp_gt : -1 < Real.sin phi := by
    have hmem1 : -(Real.pi / 2) ∈ Set.Icc (-(Real.pi / 2)) (Real.pi / 2) :=
      ⟨le_refl _, by linarith⟩
    have hmem2 : phi ∈ Set.Icc (-(Real.pi / 2)) (Real.pi / 2) := ⟨hpl.le, hpu.le⟩
    have := Real.strictMonoOn_sin hmem1 hmem2 hpl
    rwa [show Real.sin (-(Real.pi / 2)) = -1 by
      rw [Real.sin_neg, Real.sin_pi_div_two]] at this
  have hpole : Real.cos phi0 = 0 → CC ^ 2 < 1 := by
    intro hc0e
    have hs0 : Real.sin phi0 ^ 2 = 1 := by nlinarith [hsin0]
    have hCCs : CC = Real.sin phi0 * Real.sin phi := by
      rw [hC_def, hc0e]
      ring
    have hsp2 : Real.sin phi ^ 2 < 1 := by nlinarith [hsp_lt, hsp_gt]
    calc CC ^ 2 = Real.sin phi0 ^ 2 * Real.sin phi ^ 2 := by rw [hCCs]; ring
    _ = Real.sin phi ^ 2 := by rw [hs0]; ring
    _ < 1 := hsp2
  by_cases hCC1 : CC = 1
  · -- the forward image is the planar origin: the point differs from the
    -- origin only by a full longitude turn
    rcases eq_or_lt_of_le hc0 with hc0e | hc0p
    · exfalso
      have := hpole hc0e.symm
      rw [hCC1] at this
      norm_num at this
    · have hcps : Real.cos (phi - phi0) =
          Real.cos phi * Real.cos phi0 + Real.sin phi * Real.sin phi0 :=
        Real.cos_sub phi phi0
      have hkey : 1 - CC = (1 - Real.cos (phi - phi0)) +
          Real.cos phi0 * Real.cos phi * (1 - Real.cos dl) := by
        rw [hC_def]
        linear_combination hcps
      have e1 : 0 ≤ 1 - Real.cos (phi - phi0) := by
        linarith [Real.cos_le_one (phi - phi0)]
      have e2 : 0 ≤ Real.cos phi0 * Real.cos phi * (1 - Real.cos dl) :=
        mul_nonneg (mul_nonneg hc0p.le hcp.le)
          (by linarith [Real.cos_le_one dl])
      have hz1 : Real.cos (phi - phi0) = 1 := by linarith
      have hprod : Real.cos phi0 * Real.cos phi * (1 - Real.cos dl) = 0 := by
        linarith
      have hz2 : Real.cos dl = 1 := by
        have hpos : 0 < Real.cos phi0 * Real.cos phi := mul_pos hc0p hcp
        by_contra hne
        have h1cd : 0 < 1 - Real.cos dl :=
          lt_of_le_of_ne (by linarith [Real.cos_le_one dl])
            (fun hh => hne (by linarith))
        exact (ne_of_gt (mul_pos hpos h1cd)) hprod
      have hphi : phi = phi0 := by
        have hb1 : -(2 * Real.pi) < phi - phi0 := by linarith
        have hb2 : phi - phi0 < 2 * Real.pi := by linarith
        have := (Real.cos_eq_one_iff_of_lt_of_lt hb1 hb2).mp hz1
        linarith
      obtain ⟨n, hn⟩ := (Real.cos_eq_one_iff dl).mp hz2
      have h2pi : (0 : ℝ) < 2 * Real.pi := by positivity
      have hn1 : (-1 : ℤ) ≤ n := by
        have hr : (-1 : ℝ) ≤ (n : ℝ) := by
          by_contra hcon
          push_neg at hcon
          have hlt : (n : ℝ) * (2 * Real.pi) < (-1) * (2 * Real.pi) :=
            mul_lt_mul_of_pos_right hcon h2pi
          rw [hn] at hlt
          linarith only [hlt, hdll]
        exact_mod_cast hr
      have hn2 : n ≤ 1 := by
        have hr : (n : ℝ) ≤ 1 := by
          by_contra hcon
          push_neg at hcon
          have hlt : (1 : ℝ) * (2 * Real.pi) < (n : ℝ) * (2 * Real.pi) :=
            mul_lt_mul_of_pos_right hcon h2pi
          rw [hn] at hlt
          linarith only [hlt, hdlu]
        exact_mod_cast hr
      have hsdl : Real.sin dl = 0 := by
        have hcd2 : Real.cos dl ^ 2 = 1 := by
          rw [hz2]
          norm_num
        have h2 : Real.sin dl ^ 2 = 0 := by linarith only [hsind, hcd2]
        exact (pow_eq_zero_iff (two_ne_zero)).mp h2
      have hA0 : A = 0 := by
        rw [hA_def, hsdl]
        ring
      have hB0 : B = 0 := by
        rw [hB_def, hphi, hz2]
        ring
      have hs0v : s = 0 := by
        rw [hs_def, hA0, hB0]
        norm_num
      have hc0v : c = 0 := by
        rw [hc_def, hs0v, hCC1]
        exact atan2_zero_one
      have hx0 : x = 0 := by
        rw [hx_def, hc0v]
        ring
      have hy0 : y = 0 := by
        rw [hy_def, hc0v]
        ring
      have hresult : aeqdInverseRad phi0 lam0 0 0 = (phi0, wrapAngle lam0) := by
        unfold aeqdInverseRad
        rw [show Real.sqrt ((0 : ℝ) ^ 2 + 0 ^ 2) = 0 by norm_num]
        rw [if_pos rfl]
      rw [hfwd]
      show aeqdInverseRad phi0 lam0 x y = (phi, wrapAngle lam)
      rw [hx0, hy0, hresult]
      interval_cases n
      · -- dl = -(2 pi): the point is the origin shifted by a full turn west
        have hdl2 : dl = -(2 * Real.pi) := by
          push_cast at hn
          linarith
        have hlam0 : lam0 = lam - ((-1 : ℤ) : ℝ) * (2 * Real.pi) := by
          rw [hdl_def] at hdl2
          push_cast
          linarith
        rw [hphi, hlam0, wrapAngle_sub_int]
      · -- dl = 0 contradicts non-coincidence
        exfalso
        have hdl0 : dl = 0 := by
          push_cast at hn
          linarith
        rw [hdl_def] at hdl0
        exact hnc ⟨hphi, by linarith⟩
      · -- dl = 2 pi: a full turn east
        have hdl2 : dl = 2 * Real.pi := by
          push_cast at hn
          linarith
        have hlam0 : lam0 = lam - ((1 : ℤ) : ℝ) * (2 * Real.pi) := by
          rw [hdl_def] at hdl2
          push_cast
          linarith
        rw [hphi, hlam0, wrapAngle_sub_int]
  · have hCCm1 : CC ≠ -1 := by
      intro h1
      rcases eq_or_lt_of_le hc0 with hc0e | hc0p
      · have := hpole hc0e.symm
        rw [h1] at this
        norm_num at this
      · have hcpa : Real.cos (phi + phi0) =
            Real.cos phi * Real.cos phi0 - Real.sin phi * Real.sin phi0 :=
          Real.cos_add phi phi0
        have hkey : 1 + CC = (1 - Real.cos (phi + phi0)) +
            Real.cos phi0 * Real.cos phi * (1 + Real.cos dl) := by
          rw [hC_def]
          linear_combination hcpa
        have e1 : 0 ≤ 1 - Real.cos (phi + phi0) := by
          linarith [Real.cos_le_one (phi + phi0)]
        have e2 : 0 ≤ Real.cos phi0 * Real.cos phi * (1 + Real.cos dl) :=
          mul_nonneg (mul_nonneg hc0p.le hcp.le)
            (by linarith [Real.neg_one_le_cos dl])
        have hz1 : Real.cos (phi + phi0) = 1 := by linarith
        have hprod : Real.cos phi0 * Real.cos phi * (1 + Real.cos dl) = 0 := by
          linarith
        have hz2 : Real.cos dl = -1 := by
          have hpos : 0 < Real.cos phi0 * Real.cos phi := mul_pos hc0p hcp
          by_contra hne
          have h1cd : 0 < 1 + Real.cos dl :=
            lt_of_le_of_ne (by linarith [Real.neg_one_le_cos dl])
              (fun hh => hne (by linarith))
          exact (ne_of_gt (mul_pos hpos h1cd)) hprod
        have hphi : phi = -phi0 := by
          have hb1 : -(2 * Real.pi) < phi + phi0 := by linarith
          have hb2 : phi + phi0 < 2 * Real.pi := by linarith
          have := (Real.cos_eq_one_iff_of_lt_of_lt hb1 hb2).mp hz1
          linarith
        have hcos : Real.cos (dl - Real.pi) = 1 := by
          rw [Real.cos_sub, Real.cos_pi, Real.sin_pi]
          linear_combination (-1 : ℝ) * hz2
        obtain ⟨m, hm⟩ := (Real.cos_eq_one_iff _).mp hcos
        have h2pi : (0 : ℝ) < 2 * Real.pi := by positivity
        have hm1 : (-2 : ℤ) < m := by
          have hr : (-2 : ℝ) < (m : ℝ) := by
            by_contra hcon
            push_neg at hcon
            have hle : (m : ℝ) * (2 * Real.pi) ≤ (-2) * (2 * Real.pi) :=
              mul_le_mul_of_nonneg_right hcon h2pi.le
            rw [hm] at hle
            linarith only [hle, hdll, hpi]
          exact_mod_cast hr
        have hm2 : m < 1 := by
          have hr : (m : ℝ) < 1 := by
            by_contra hcon
            push_neg at hcon
            have hle : (1 : ℝ) * (2 * Real.pi) ≤ (m : ℝ) * (2 * Real.pi) :=
              mul_le_mul_of_nonneg_right hcon h2pi.le
            rw [hm] at hle
            linarith only [hle, hdlu, hpi]
          exact_mod_cast hr
        interval_cases m
        · have hdlm : dl = -Real.pi := by
            push_cast at hm
            linarith
          exact hna ⟨hphi, Or.inr hdlm⟩
        · have hdlm : dl = Real.pi := by
            push_cast at hm
            linarith
          exact hna ⟨hphi, Or.inl hdlm⟩
    have hCC2 : CC ^ 2 < 1 := by
      have hle : CC ^ 2 ≤ 1 := by nlinarith [hsum, sq_nonneg A, sq_nonneg B]
      rcases lt_or_eq_of_le hle with h | h
      · exact h
      · exfalso
        have hf : (CC - 1) * (CC + 1) = 0 := by nlinarith [h]
        rcases mul_eq_zero.mp hf with h1 | h1
        · exact hCC1 (by linarith)
        · exact hCCm1 (by linarith)
    have hAB : A ^ 2 + B ^ 2 = 1 - CC ^ 2 := by linarith
    have hs_pos : 0 < s := by
      rw [hs_def]
      exact Real.sqrt_pos.mpr (by nlinarith)
    have hs_sq : s ^ 2 = A ^ 2 + B ^ 2 := by
      rw [hs_def]
      exact Real.sq_sqrt (by positivity)
    have hsne : s ≠ 0 := ne_of_gt hs_pos
    have hunit : CC ^ 2 + s ^ 2 = 1 := by rw [hs_sq]; linarith
    have hcosc : Real.cos c = CC := by
      rw [hc_def]
      exact cos_atan2_unit hunit
    have hsinc : Real.sin c = s := by
      rw [hc_def]
      exact sin_atan2_unit hunit
    have hth2 : B ^ 2 + A ^ 2 = s ^ 2 := by rw [hs_sq]; ring
    have hcosth : Real.cos th = B / s := by
      rw [hth_def]
      exact (cos_sin_atan2_scaled hs_pos hth2).1
    have hsinth : Real.sin th = A / s := by
      rw [hth_def]
      exact (cos_sin_atan2_scaled hs_pos hth2).2
    have hc_nonneg : 0 ≤ c := by
      rw [hc_def]
      exact atan2_nonneg hs_pos.le
    have hc_pos : 0 < c := by
      rcases eq_or_lt_of_le hc_nonneg with he | hl
      · exfalso
        have : CC = 1 := by
          rw [← hcosc, ← he]
          exact Real.cos_zero
        exact hCC1 this
      · exact hl
    have hR_pos : (0 : ℝ) < earthRadius := by
      unfold earthRadius
      norm_num
    have hRne : earthRadius ≠ 0 := ne_of_gt hR_pos
    have hcR_pos : 0 < c * earthRadius := mul_pos hc_pos hR_pos
    have hxy : x ^ 2 + y ^ 2 = (c * earthRadius) ^ 2 := by
      rw [hx_def, hy_def]
      linear_combination (c * earthRadius) ^ 2 * Real.sin_sq_add_cos_sq th
    have hrho : Real.sqrt (x ^ 2 + y ^ 2) = c * earthRadius := by
      rw [hxy]
      exact Real.sqrt_sq hcR_pos.le
    have hyB : y * Real.sin c = c * earthRadius * B := by
      rw [hy_def, hsinc, hcosth]
      field_simp
    have hxA : x * Real.sin c = c * earthRadius * A := by
      rw [hx_def, hsinc, hsinth]
      field_simp
    rw [hfwd]
    show aeqdInverseRad phi0 lam0 x y = (phi, wrapAngle lam)
    simp only [aeqdInverseRad]
    rw [hrho, if_neg (ne_of_gt hcR_pos)]
    have hdivR : c * earthRadius / earthRadius = c := by
      field_simp
    rw [hdivR]
    have hphiarg : Real.cos c * Real.sin phi0 +
        y * Real.sin c * Real.cos phi0 / (c * earthRadius) = Real.sin phi := by
      rw [show y * Real.sin c * Real.cos phi0 =
        (y * Real.sin c) * Real.cos phi0 by ring, hyB, hcosc]
      rw [hC_def, hB_def]
      field_simp
      linear_combination (c * earthRadius * Real.sin phi) * hsin0
    have hlx : x * Real.sin c = c * earthRadius * Real.cos phi * Real.sin dl := by
      rw [hxA, hA_def]
      ring
    have hly : c * earthRadius * Real.cos phi0 * Real.cos c -
        y * Real.sin phi0 * Real.sin c =
        c * earthRadius * Real.cos phi * Real.cos dl := by
      rw [show y * Real.sin phi0 * Real.sin c =
        (y * Real.sin c) * Real.sin phi0 by ring, hyB, hcosc]
      rw [hC_def, hB_def]
      linear_combination (c * earthRadius * Real.cos phi * Real.cos dl) * hsin0
    have hcdl : Real.cos dl ^ 2 + Real.sin dl ^ 2 = 1 := by linarith
    have hcosdlp : Real.cos (atan2 (Real.sin dl) (Real.cos dl)) =
        Real.cos dl := cos_atan2_unit hcdl
    have hsindlp : Real.sin (atan2 (Real.sin dl) (Real.cos dl)) =
        Real.sin dl := sin_atan2_unit hcdl
    have hcd1 : Real.cos (dl - atan2 (Real.sin dl) (Real.cos dl)) = 1 := by
      rw [Real.cos_sub, hcosdlp, hsindlp]
      linarith [hsind]
    obtain ⟨n, hn⟩ := (Real.cos_eq_one_iff _).mp hcd1
    have hshift : lam0 + atan2 (Real.sin dl) (Real.cos dl) =
        lam - (n : ℝ) * (2 * Real.pi) := by
      have hdl2 : dl = lam - lam0 := hdl_def
      linarith [hn]
    rw [hphiarg, Real.arcsin_sin hpl.le hpu.le, hlx, hly,
      atan2_smul (mul_pos hcR_pos hcp), hshift, wrapAngle_sub_int]

/-- Claim C1, amended: for every valid origin and every valid geographic
point whose latitude is strictly between the poles, neither coincident
with the origin nor antipodal to it, the inverse AEQD transform recovers
the point from its forward projection exactly — the latitude as given,
and the longitude as its canonical `(-180, 180]` representative (PROJ
normalises inverse longitudes); in particular, for every longitude above
`-180` the recovery is numerically exact, hence within `1e-6` degrees. -/
theorem aeqd_roundtrip (lat0 lon0 lat lon : ℝ)
    (h1 : -90 ≤ lat0) (h2 : lat0 ≤ 90)
    (h2a : -180 ≤ lon0) (h2b : lon0 ≤ 180)
    (h3 : -90 < lat) (h4 : lat < 90)
    (h5 : -180 ≤ lon) (h6 : lon ≤ 180)
    (h7 : ¬(lat = lat0 ∧ lon = lon0))
    (h8 : ¬isAntipodal lat0 lon0 lat lon) :
    aeqdInverse lat0 lon0 (aeqdForward lat0 lon0 lat lon).1
      (aeqdForward lat0 lon0 lat lon).2 = (lat, wrapLon lon) ∧
    (-180 < lon →
      aeqdInverse lat0 lon0 (aeqdForward lat0 lon0 lat lon).1
        (aeqdForward lat0 lon0 lat lon).2 = (lat, lon)) := by
  have hd1 : (-360 : ℝ) ≤ lon - lon0 := by linarith
  have hd2 : lon - lon0 ≤ 360 := by linarith
  have core := aeqd_roundtrip_rad (torad lat0) (torad lon0) (torad lat)
    (torad lon)
    (by rw [← torad_neg_90]; exact torad_le h1)
    (by rw [← torad_90]; exact torad_le h2)
    (by rw [← torad_neg_90]; exact torad_lt h3)
    (by rw [← torad_90]; exact torad_lt h4)
    (by rw [torad_sub, ← torad_neg_360]; exact torad_le hd1)
    (by rw [torad_sub, ← torad_360]; exact torad_le hd2)
    (fun hcontra => h7 ⟨torad_inj hcontra.1, torad_inj hcontra.2⟩)
    (by
      rintro ⟨e1, e2⟩
      apply h8
      refine ⟨torad_inj (by rw [torad_neg]; exact e1), ?_⟩
      rcases e2 with e2 | e2
      · refine Or.inl ?_
        rw [torad_sub, ← torad_180] at e2
        exact torad_inj e2
      · refine Or.inr ?_
        rw [torad_sub, ← torad_neg_180] at e2
        exact torad_inj e2)
  have hmain : aeqdInverse lat0 lon0 (aeqdForward lat0 lon0 lat lon).1
      (aeqdForward lat0 lon0 lat lon).2 = (lat, wrapLon lon) := by
    unfold aeqdInverse aeqdForward
    rw [core]
    show (torad lat * (180 / Real.pi),
      wrapAngle (torad lon) * (180 / Real.pi)) = (lat, wrapLon lon)
    rw [show torad lat * (180 / Real.pi) = lat from todeg_torad lat]
    rfl
  refine ⟨hmain, fun hlt => ?_⟩
  rw [hmain, wrapLon_eq_self hlt h6]

/-- Witness for `aeqd_roundtrip`: a point 90 degrees east of the origin
on the equator round-trips exactly. -/
theorem aeqd_roundtrip_witness :
    aeqdInverse 0 0 (aeqdForward 0 0 0 90).1 (aeqdForward 0 0 0 90).2 =
      (0, 90) :=
  (aeqd_roundtrip 0 0 0 90 (by norm_num) (by norm_num) (by norm_num)
    (by norm_num) (by norm_num) (by norm_num) (by norm_num) (by norm_num)
    (by norm_num) (by norm_num [isAntipodal])).2 (by norm_num)

/-- Claim C1, counterexample: at the north pole the forward projection
collapses every longitude to the same planar point, so the inverse cannot
recover the longitude.  The pole `(90, 50)` is a valid point, neither
coincident with the origin `(0, 0)` nor antipodal to it, yet the
round-trip returns longitude `0`, an error of `50` degrees — far beyond
the claimed `1e-6` degrees. -/
theorem aeqd_roundtrip_pole_cex :
    ((-90 : ℝ) ≤ 90 ∧ (90 : ℝ) ≤ 90 ∧ (-180 : ℝ) ≤ 50 ∧ (50 : ℝ) ≤ 180) ∧
    ¬((90 : ℝ) = 0 ∧ (50 : ℝ) = 0) ∧
    ¬isAntipodal 0 0 90 50 ∧
    (aeqdInverse 0 0 (aeqdForward 0 0 90 50).1
      (aeqdForward 0 0 90 50).2).2 = 0 ∧
    1 / 1000000 <
      |(aeqdInverse 0 0 (aeqdForward 0 0 90 50).1
        (aeqdForward 0 0 90 50).2).2 - 50| := by
  have hpi := Real.pi_pos
  have hR_pos : (0 : ℝ) < earthRadius := by
    unfold earthRadius
    norm_num
  have hfwd : aeqdForward 0 0 90 50 = (0, Real.pi / 2 * earthRadius) := by
    unfold aeqdForward aeqdForwardRad
    rw [torad_zero, torad_90]
    simp only [Real.sin_zero, Real.cos_zero, Real.sin_pi_div_two,
      Real.cos_pi_div_two, sub_zero, zero_mul, mul_zero, mul_one, one_mul,
      zero_sub, zero_add, add_zero, sub_self, neg_zero]
    norm_num [Real.sqrt_one, atan2_one_zero, atan2_zero_one,
      Real.sin_zero, Real.cos_zero]
  have hpos : 0 < Real.pi / 2 * earthRadius := by positivity
  have hinv : aeqdInverse 0 0 0 (Real.pi / 2 * earthRadius) = (90, 0) := by
    unfold aeqdInverse aeqdInverseRad
    rw [torad_zero]
    have hrho : Real.sqrt ((0 : ℝ) ^ 2 + (Real.pi / 2 * earthRadius) ^ 2) =
        Real.pi / 2 * earthRadius := by
      rw [show (0 : ℝ) ^ 2 + (Real.pi / 2 * earthRadius) ^ 2 =
        (Real.pi / 2 * earthRadius) ^ 2 by ring]
      exact Real.sqrt_sq hpos.le
    rw [hrho, if_neg (ne_of_gt hpos)]
    have hc : Real.pi / 2 * earthRadius / earthRadius = Real.pi / 2 := by
      field_simp
      ring
    rw [hc]
    simp only [Real.sin_zero, Real.cos_zero, Real.sin_pi_div_two,
      Real.cos_pi_div_two, mul_zero, zero_mul, mul_one, one_mul, sub_zero,
      zero_add, add_zero]
    have e90 : Real.pi / 2 * (180 / Real.pi) = (90 : ℝ) := by
      field_simp
      ring
    have hw0 : wrapAngle (0 : ℝ) = 0 :=
      wrapAngle_eq_self (by linarith [Real.pi_pos]) Real.pi_pos.le
    rw [div_self (ne_of_gt hpos), Real.arcsin_one, atan2_zero_zero, e90,
      hw0, zero_mul]
  refine ⟨by norm_num, by norm_num, by norm_num [isAntipodal], ?_, ?_⟩
  · rw [hfwd]
    show (aeqdInverse 0 0 0 (Real.pi / 2 * earthRadius)).2 = 0
    rw [hinv]
  · rw [hfwd]
    show 1 / 1000000 <
      |(aeqdInverse 0 0 0 (Real.pi / 2 * earthRadius)).2 - 50|
    rw [hinv]
    norm_num

end DeMercator
